import Mathlib

/-!
Shallow embedding of the ReadMatic README generator
(FileSystemAnalyzer, ContentGenerator, MarkdownFormatter, ConfigurationLoader)
together with proofs of properties of its specification.

JavaScript strings are modelled as Lean `String`, JavaScript objects with
string keys as insertion-ordered association lists, and filesystem access
as explicit data passed to the embedded functions.
-/

namespace ReadMatic

/-- Whitespace characters handled by the JavaScript string trim used in the source. -/
def wsChar (c : Char) : Bool := c = ' ' || c = '\t' || c = '\n' || c = '\r'

/-- Model of JavaScript String.prototype.trim: drop whitespace from both ends. -/
def jsTrim (s : String) : String :=
  String.mk (((s.toList.dropWhile wsChar).reverse.dropWhile wsChar).reverse)

/-- Concatenation of a list of strings. -/
def strConcat : List String → String
  | [] => ""
  | s :: rest => s ++ strConcat rest

/-- Fixed section order of MarkdownFormatter.assembleSections. -/
def sectionOrder : List String :=
  ["title", "description", "installation", "usage", "structure", "license"]

/-- JavaScript object read sections[key] on a string-valued object: the first
binding for the key, or the empty string (the falsy default) when absent. -/
def objGet (sections : List (String × String)) (key : String) : String :=
  ((sections.find? (fun kv => kv.1 == key)).map (fun kv => kv.2)).getD ""

/-- MarkdownFormatter.assembleSections: walk the fixed key order, append each
truthy (non-empty) section, then trim the result and add one newline. -/
def assembleSections (sections : List (String × String)) : String :=
  jsTrim (sectionOrder.foldl
    (fun acc key => if objGet sections key ≠ "" then acc ++ objGet sections key else acc) "")
    ++ "\n"

theorem strConcat_cons (s : String) (l : List String) :
    strConcat (s :: l) = s ++ strConcat l := rfl

theorem foldl_skip_empty (g : String → String) :
    ∀ (keys : List String) (acc : String),
      keys.foldl (fun a k => if g k ≠ "" then a ++ g k else a) acc
        = acc ++ strConcat ((keys.filter (fun k => g k ≠ "")).map g) := by
  intro keys
  induction keys with
  | nil => intro acc; simp [strConcat]
  | cons k ks ih =>
      intro acc
      rw [List.foldl_cons, List.filter_cons]
      by_cases h : g k = ""
      · rw [if_neg (by simp [h]), if_neg (by simp [h])]
        exact ih acc
      · rw [if_pos (by simp [h]), if_pos (by simp [h]), List.map_cons, strConcat_cons,
          ← String.append_assoc]
        exact ih (acc ++ g k)

theorem head?_dropWhile_not (p : Char → Bool) (l : List Char) :
    ∀ c, (l.dropWhile p).head? = some c → p c = false := by
  induction l with
  | nil => simp
  | cons a l ih =>
      intro c h
      by_cases hp : p a
      · exact ih c (by simpa [List.dropWhile_cons, hp] using h)
      · rw [List.dropWhile_cons, if_neg hp, List.head?_cons] at h
        cases h
        exact Bool.eq_false_iff.mpr hp

theorem jsTrim_getLast?_not_ws (s : String) (c : Char)
    (h : (jsTrim s).toList.getLast? = some c) : wsChar c = false := by
  have h' : (((s.toList.dropWhile wsChar).reverse.dropWhile wsChar).reverse).getLast? = some c := h
  rw [List.getLast?_reverse] at h'
  exact head?_dropWhile_not wsChar _ c h'

/-- C2: assembleSections concatenates exactly the sections with a key among
title, description, installation, usage, structure, license and a non-empty
value, in that fixed order; the result is the trimmed concatenation followed
by exactly one trailing newline (the trimmed part cannot itself end in a
newline). -/
theorem C2_assembleSections_correct (sections : List (String × String)) :
    assembleSections sections
        = jsTrim (strConcat ((sectionOrder.filter
            (fun k => objGet sections k ≠ "")).map (objGet sections))) ++ "\n"
      ∧ (assembleSections sections).toList.getLast? = some '\n'
      ∧ ∀ c, (jsTrim (strConcat ((sectionOrder.filter
            (fun k => objGet sections k ≠ "")).map (objGet sections)))).toList.getLast? = some c →
          c ≠ '\n' := by
  refine ⟨?_, ?_, ?_⟩
  · unfold assembleSections
    rw [foldl_skip_empty (objGet sections) sectionOrder ""]
    simp
  · unfold assembleSections
    rw [show ((jsTrim (sectionOrder.foldl
      (fun acc key => if objGet sections key ≠ "" then acc ++ objGet sections key else acc) "")
      ++ "\n")).toList = (jsTrim (sectionOrder.foldl
      (fun acc key => if objGet sections key ≠ "" then acc ++ objGet sections key else acc) "")).toList
      ++ ['\n'] from rfl]
    exact List.getLast?_concat _
  · intro c hc hcn
    have := jsTrim_getLast?_not_ws _ c hc
    subst hcn
    simp [wsChar] at this

/-- Witness for C2's conditional conjunct at a concrete section mapping. -/
theorem C2_assembleSections_correct_witness :
    assembleSections [("title", "# T")]
        = jsTrim (strConcat ((sectionOrder.filter
            (fun k => objGet [("title", "# T")] k ≠ "")).map (objGet [("title", "# T")]))) ++ "\n"
      ∧ ('T' : Char) ≠ '\n' := by
  refine ⟨(C2_assembleSections_correct [("title", "# T")]).1, ?_⟩
  exact (C2_assembleSections_correct [("title", "# T")]).2.2 'T' (by decide)

/-! ## ConfigurationLoader (src/src/ConfigurationLoader.ts) -/

/-- GeneratorConfig with all fields present (src/src/types/index.ts). -/
structure GeneratorConfig where
  excludeSections : List String
  customContent : List (String × String)
  maxDepth : Int
  includeHiddenFiles : Bool
  deriving DecidableEq, Repr

/-- A user configuration object as parsed from .readmerc.json: each field may
be absent. -/
structure PartialConfig where
  excludeSections : Option (List String)
  customContent : Option (List (String × String))
  maxDepth : Option Int
  includeHiddenFiles : Option Bool
  deriving DecidableEq, Repr

/-- ConfigurationLoader.mergeWithDefaults: fill every absent field with its
default (the JS source uses or-defaulting for the two object fields and
nullish-coalescing for maxDepth and includeHiddenFiles). -/
def mergeWithDefaults (config : PartialConfig) : GeneratorConfig where
  excludeSections := config.excludeSections.getD []
  customContent := config.customContent.getD []
  maxDepth := config.maxDepth.getD 3
  includeHiddenFiles := config.includeHiddenFiles.getD false

/-- The configuration source at the project root as seen by loadConfig: the
file may be absent, present but invalid JSON, or parsed into a partial
configuration. -/
inductive ConfigSource where
  | absent
  | unparsable
  | parsed (config : PartialConfig)

/-- ConfigurationLoader.loadConfig: merge the parsed user configuration with
the defaults; an absent or unparsable file merges the empty partial object. -/
def loadConfig (src : ConfigSource) : GeneratorConfig :=
  match src with
  | .absent => mergeWithDefaults ⟨none, none, none, none⟩
  | .unparsable => mergeWithDefaults ⟨none, none, none, none⟩
  | .parsed config => mergeWithDefaults config

/-- ConfigurationLoader.applySectionExclusion: rebuild the sections object
keeping only the entries whose key is not listed in excludeSections. -/
def applySectionExclusion (sections : List (String × String))
    (excludeSections : List String) : List (String × String) :=
  sections.filter (fun kv => !(excludeSections.contains kv.1))

/-- JavaScript object assignment result[key] = value: replace the value at an
existing key (keeping its position) or append a new binding at the end. -/
def objSet (m : List (String × String)) (key value : String) : List (String × String) :=
  match m with
  | [] => [(key, value)]
  | kv :: rest => if kv.1 == key then (kv.1, value) :: rest else kv :: objSet rest key value

/-- ConfigurationLoader.applyCustomContent: starting from a copy of sections,
assign every truthy (non-empty) custom value to its key. -/
def applyCustomContent (sections customContent : List (String × String)) :
    List (String × String) :=
  customContent.foldl
    (fun result kv => if kv.2 ≠ "" then objSet result kv.1 kv.2 else result) sections

/-- JavaScript object lookup returning the binding when the key is present. -/
def objGet? (m : List (String × String)) (key : String) : Option String :=
  (m.find? (fun kv => kv.1 == key)).map (fun kv => kv.2)

/-- C10: an absent or unparsable configuration source yields the fully
defaulted configuration (no excluded sections, no custom content, maxDepth 3,
hidden files off), and every parsed configuration is the total merge of the
user values with those defaults, so no partial configuration ever reaches the
generator. -/
theorem C10_loadConfig_defaults :
    loadConfig ConfigSource.absent
        = { excludeSections := [], customContent := [], maxDepth := 3, includeHiddenFiles := false }
      ∧ loadConfig ConfigSource.unparsable
        = { excludeSections := [], customContent := [], maxDepth := 3, includeHiddenFiles := false }
      ∧ ∀ config : PartialConfig,
          loadConfig (ConfigSource.parsed config) = mergeWithDefaults config :=
  ⟨rfl, rfl, fun _ => rfl⟩

theorem objGet?_objSet_self (m : List (String × String)) (key value : String) :
    objGet? (objSet m key value) key = some value := by
  induction m with
  | nil => simp [objSet, objGet?]
  | cons kv rest ih =>
      by_cases h : kv.1 = key
      · simp [objSet, objGet?, h]
      · simp only [objSet, beq_iff_eq, h, if_false]
        simpa [objGet?, List.find?_cons, h] using ih

theorem objGet?_objSet_other (m : List (String × String)) (key key' value : String)
    (h : key' ≠ key) : objGet? (objSet m key value) key' = objGet? m key' := by
  induction m with
  | nil =>
      simp only [objSet, objGet?, List.find?_cons, List.find?_nil]
      rw [show (key == key') = false from beq_eq_false_iff_ne.mpr (fun hh => h hh.symm)]
  | cons kv rest ih =>
      by_cases hk : kv.1 = key
      · subst hk
        have hne : (kv.1 == key') = false := beq_eq_false_iff_ne.mpr (fun hh => h hh.symm)
        simp [objSet, objGet?, List.find?_cons, hne]
      · simp only [objSet, beq_iff_eq, hk, if_false]
        by_cases hk' : kv.1 = key'
        · simp [objGet?, List.find?_cons, hk']
        · simpa [objGet?, List.find?_cons, hk'] using ih

theorem applyCustomContent_cons (base : List (String × String)) (kv : String × String)
    (rest : List (String × String)) :
    applyCustomContent base (kv :: rest)
      = applyCustomContent (if kv.2 ≠ "" then objSet base kv.1 kv.2 else base) rest := rfl

theorem objGet?_applyCustomContent_not_mem :
    ∀ (customContent base : List (String × String)) (key : String),
      (∀ value, (key, value) ∈ customContent → value = "") →
      objGet? (applyCustomContent base customContent) key = objGet? base key := by
  intro customContent
  induction customContent with
  | nil => intro base key _; rfl
  | cons kv rest ih =>
      intro base key hall
      rw [applyCustomContent_cons]
      by_cases hv : kv.2 = ""
      · rw [if_neg (by simpa using hv)]
        exact ih base key (fun value hm => hall value (List.mem_cons_of_mem _ hm))
      · rw [if_pos (by simpa using hv)]
        have hk : key ≠ kv.1 := by
          intro hkey
          exact hv (hall kv.2 (by subst hkey; simp))
        rw [ih _ key (fun value hm => hall value (List.mem_cons_of_mem _ hm))]
        exact objGet?_objSet_other base kv.1 key kv.2 hk

theorem objGet?_applyCustomContent_mem :
    ∀ (customContent base : List (String × String)) (key value : String),
      (customContent.map Prod.fst).Nodup → (key, value) ∈ customContent → value ≠ "" →
      objGet? (applyCustomContent base customContent) key = some value := by
  intro customContent
  induction customContent with
  | nil => simp
  | cons kv rest ih =>
      intro base key value hnd hmem hval
      rw [List.map_cons, List.nodup_cons] at hnd
      rcases List.mem_cons.mp hmem with h | h
      · cases h
        rw [applyCustomContent_cons, if_pos (by simpa using hval)]
        rw [objGet?_applyCustomContent_not_mem rest _ key ?_]
        · exact objGet?_objSet_self base key value
        · intro v hv
          exact absurd (List.mem_map_of_mem Prod.fst hv) hnd.1
      · rw [applyCustomContent_cons]
        exact ih _ key value hnd.2 h hval

/-- C3: on the spec's scenario, excluding the description section and then
overriding it with custom content X yields the mapping title ↦ T,
description ↦ X; in general, running applyCustomContent after
applySectionExclusion gives every key with a non-empty custom value that
value (reinstating excluded keys), and leaves every other key of the
excluded mapping unchanged. -/
theorem C3_exclude_then_override :
    applyCustomContent
        (applySectionExclusion [("title", "T"), ("description", "D")] ["description"])
        [("description", "X")]
      = [("title", "T"), ("description", "X")]
      ∧ (∀ (sections : List (String × String)) (excludeSections : List String)
            (customContent : List (String × String)) (key value : String),
          (customContent.map Prod.fst).Nodup → (key, value) ∈ customContent → value ≠ "" →
          objGet? (applyCustomContent (applySectionExclusion sections excludeSections)
            customContent) key = some value)
      ∧ (∀ (sections : List (String × String)) (excludeSections : List String)
            (customContent : List (String × String)) (key : String),
          (∀ value, (key, value) ∈ customContent → value = "") →
          objGet? (applyCustomContent (applySectionExclusion sections excludeSections)
            customContent) key = objGet? (applySectionExclusion sections excludeSections) key) := by
  refine ⟨by decide, ?_, ?_⟩
  · intro sections excludeSections customContent key value hnd hmem hval
    exact objGet?_applyCustomContent_mem customContent _ key value hnd hmem hval
  · intro sections excludeSections customContent key hall
    exact objGet?_applyCustomContent_not_mem customContent _ key hall

/-- Witness for C3's conditional conjuncts at the spec scenario's inputs. -/
theorem C3_exclude_then_override_witness :
    objGet? (applyCustomContent
        (applySectionExclusion [("title", "T"), ("description", "D")] ["description"])
        [("description", "X")]) "description" = some "X"
      ∧ objGet? (applyCustomContent
        (applySectionExclusion [("title", "T"), ("description", "D")] ["description"])
        [("description", "X")]) "title"
        = objGet? (applySectionExclusion [("title", "T"), ("description", "D")] ["description"])
            "title" := by
  constructor
  · exact (C3_exclude_then_override).2.1 [("title", "T"), ("description", "D")] ["description"]
      [("description", "X")] "description" "X" (by decide) (by decide) (by decide)
  · refine (C3_exclude_then_override).2.2 [("title", "T"), ("description", "D")] ["description"]
      [("description", "X")] "title" ?_
    intro v hv
    have h := List.mem_singleton.mp hv
    rw [Prod.mk.injEq] at h
    exact absurd h.1 (by decide)

/-! ## ContentGenerator.generateInstallation (src/src/ContentGenerator.ts) -/

/-- Manifest kinds of the DependencyManifest type (src/src/types/index.ts). -/
inductive ManifestType where
  | npm
  | pip
  | cargo
  | other
  deriving DecidableEq, Repr

/-- DependencyManifest record (src/src/types/index.ts). -/
structure DependencyManifest where
  type : ManifestType
  filePath : String
  projectName : String
  description : String
  dependencies : List String
  deriving DecidableEq, Repr

/-- ContentGenerator.generateInstallation: the empty string for an empty
manifest list, otherwise the Installation heading followed by the command
blocks accumulated over the manifests in order. -/
def generateInstallation (manifests : List DependencyManifest) : String :=
  if manifests.length = 0 then ""
  else
    manifests.foldl
      (fun content manifest =>
        match manifest.type with
        | .npm => content ++ "```bash\nnpm install\n```\n\n" ++ "or\n\n"
            ++ "```bash\nyarn install\n```\n\n"
        | .pip => content ++ "```bash\npip install -r requirements.txt\n```\n\n"
        | .cargo => content ++ "```bash\ncargo build\n```\n\n"
        | .other => content)
      "\n## Installation\n\n"

/-- The fenced installation command block a single manifest contributes, as
the spec describes it; the kind other contributes no block. -/
def installBlock (manifest : DependencyManifest) : String :=
  match manifest.type with
  | .npm => "```bash\nnpm install\n```\n\nor\n\n```bash\nyarn install\n```\n\n"
  | .pip => "```bash\npip install -r requirements.txt\n```\n\n"
  | .cargo => "```bash\ncargo build\n```\n\n"
  | .other => ""

/-- The needle occurs as a contiguous substring of the haystack. -/
def strContainsSub (s sub : String) : Prop :=
  ∃ l r, s.toList = l ++ sub.toList ++ r

theorem foldl_append_blocks {α : Type} (g : α → String) :
    ∀ (l : List α) (acc : String),
      l.foldl (fun c x => c ++ g x) acc = acc ++ strConcat (l.map g) := by
  intro l
  induction l with
  | nil => intro acc; simp [strConcat]
  | cons x xs ih =>
      intro acc
      rw [List.foldl_cons, List.map_cons, strConcat_cons, ih, String.append_assoc]

theorem generateInstallation_step (content : String) (manifest : DependencyManifest) :
    (match manifest.type with
      | ManifestType.npm => content ++ "```bash\nnpm install\n```\n\n" ++ "or\n\n"
          ++ "```bash\nyarn install\n```\n\n"
      | ManifestType.pip => content ++ "```bash\npip install -r requirements.txt\n```\n\n"
      | ManifestType.cargo => content ++ "```bash\ncargo build\n```\n\n"
      | ManifestType.other => content)
    = content ++ installBlock manifest := by
  cases h : manifest.type <;>
    simp only [installBlock, h, String.append_assoc, String.append_empty] <;>
    rw [show ("```bash\nnpm install\n```\n\n" ++ ("or\n\n" ++ "```bash\nyarn install\n```\n\n"))
      = "```bash\nnpm install\n```\n\nor\n\n```bash\nyarn install\n```\n\n" from rfl]

theorem generateInstallation_foldl (manifests : List DependencyManifest) :
    ∀ acc : String,
      manifests.foldl
        (fun content manifest =>
          match manifest.type with
          | .npm => content ++ "```bash\nnpm install\n```\n\n" ++ "or\n\n"
              ++ "```bash\nyarn install\n```\n\n"
          | .pip => content ++ "```bash\npip install -r requirements.txt\n```\n\n"
          | .cargo => content ++ "```bash\ncargo build\n```\n\n"
          | .other => content) acc
      = acc ++ strConcat (manifests.map installBlock) := by
  intro acc
  rw [show (fun (content : String) (manifest : DependencyManifest) =>
        match manifest.type with
        | ManifestType.npm => content ++ "```bash\nnpm install\n```\n\n" ++ "or\n\n"
            ++ "```bash\nyarn install\n```\n\n"
        | ManifestType.pip => content ++ "```bash\npip install -r requirements.txt\n```\n\n"
        | ManifestType.cargo => content ++ "```bash\ncargo build\n```\n\n"
        | ManifestType.other => content)
      = (fun (c : String) (x : DependencyManifest) => c ++ installBlock x) from
      funext fun content => funext fun manifest => generateInstallation_step content manifest]
  exact foldl_append_blocks installBlock manifests acc

/-- C9: generateInstallation of no manifests is the empty string; otherwise it
is the Installation heading followed by one command block per manifest in
detection order (npm install with a yarn alternative, pip install -r
requirements.txt, cargo build); for a single cargo manifest the output
contains the substrings cargo build and ## Installation. -/
theorem C9_generateInstallation_correct :
    generateInstallation [] = ""
      ∧ (∀ manifests : List DependencyManifest, manifests ≠ [] →
          generateInstallation manifests
            = "\n## Installation\n\n" ++ strConcat (manifests.map installBlock))
      ∧ (∀ manifest : DependencyManifest, manifest.type = ManifestType.cargo →
          strContainsSub (generateInstallation [manifest]) "cargo build"
            ∧ strContainsSub (generateInstallation [manifest]) "## Installation") := by
  refine ⟨rfl, ?_, ?_⟩
  · intro manifests h
    unfold generateInstallation
    rw [if_neg (by simpa [List.length_eq_zero] using h)]
    exact generateInstallation_foldl manifests "\n## Installation\n\n"
  · intro manifest h
    obtain ⟨t, fp, pn, d, deps⟩ := manifest
    cases h
    have heq : generateInstallation [⟨ManifestType.cargo, fp, pn, d, deps⟩]
        = "\n## Installation\n\n" ++ "```bash\ncargo build\n```\n\n" := rfl
    rw [heq]
    constructor
    · exact ⟨"\n## Installation\n\n```bash\n".toList, "\n```\n\n".toList, by decide⟩
    · exact ⟨"\n".toList, "\n\n```bash\ncargo build\n```\n\n".toList, by decide⟩

/-- Witness for C9's conditional conjuncts at a concrete cargo manifest. -/
theorem C9_generateInstallation_correct_witness :
    generateInstallation [⟨ManifestType.cargo, "Cargo.toml", "demo", "", []⟩]
        = "\n## Installation\n\n"
          ++ strConcat ([(⟨ManifestType.cargo, "Cargo.toml", "demo", "", []⟩ :
              DependencyManifest)].map installBlock)
      ∧ strContainsSub
          (generateInstallation [⟨ManifestType.cargo, "Cargo.toml", "demo", "", []⟩])
          "cargo build" := by
  constructor
  · exact C9_generateInstallation_correct.2.1
      [⟨ManifestType.cargo, "Cargo.toml", "demo", "", []⟩] (by simp)
  · exact (C9_generateInstallation_correct.2.2
      ⟨ManifestType.cargo, "Cargo.toml", "demo", "", []⟩ rfl).1

/-! ## FileSystemAnalyzer.detectLanguage (src/unnamed/part_001) -/

/-- Model of Node path.extname: the part of the last path component from its
last dot on, where a dot in leading position (a dotfile), a component without
a dot, and the special component consisting of two dots give no extension;
trailing path separators are ignored. -/
def extname (file : String) : String :=
  let revNoSlash := file.toList.reverse.dropWhile (fun c => c = '/')
  let revBase := revNoSlash.takeWhile (fun c => c ≠ '/')
  let afterDot := revBase.takeWhile (fun c => c ≠ '.')
  if afterDot.length = revBase.length then ""
  else
    let base := revBase.reverse
    let dotIdx := revBase.length - afterDot.length - 1
    if dotIdx = 0 ∨ base = ['.', '.'] then ""
    else String.mk (base.drop dotIdx)

/-- Model of JavaScript String.prototype.toLowerCase on the ASCII range. -/
def jsToLower (s : String) : String :=
  String.mk (s.toList.map Char.toLower)

/-- JavaScript object increment extensionCounts[ext]: bump an existing count
in place or append the key with count 1. -/
def bump : List (String × Nat) → String → List (String × Nat)
  | [], ext => [(ext, 1)]
  | kv :: rest, ext =>
      if kv.1 == ext then (kv.1, kv.2 + 1) :: rest else kv :: bump rest ext

/-- The extension tally loop of detectLanguage: count every extension, keys
kept in first-occurrence order as JavaScript object keys are. -/
def tally (exts : List String) : List (String × Nat) :=
  exts.foldl bump []

/-- The fixed extension-to-language table of detectLanguage. -/
def languageMap : List (String × String) :=
  [(".ts", "TypeScript"), (".js", "JavaScript"), (".py", "Python"), (".rs", "Rust"),
   (".go", "Go"), (".java", "Java"), (".cpp", "C++"), (".c", "C"), (".rb", "Ruby"),
   (".php", "PHP")]

/-- The truthy (non-empty) lowercased extensions of the files, in input
order, as collected by the first loop of detectLanguage. -/
def extsOf (files : List String) : List String :=
  files.filterMap (fun file =>
    let ext := jsToLower (extname file)
    if ext = "" then none else some ext)

/-- FileSystemAnalyzer.detectLanguage: tally the lowercased extensions, scan
the entries keeping the first entry whose count strictly exceeds the running
maximum (initially zero), and map the winning extension through the fixed
language table with Unknown as the fallback. -/
def detectLanguage (files : List String) : String :=
  (objGet? languageMap
    ((tally (extsOf files)).foldl
      (fun acc kv => if kv.2 > acc.1 then (kv.2, kv.1) else acc) (0, "")).2).getD "Unknown"

/-- First-occurrence deduplication of a list of keys. -/
def firstDedup : List String → List String
  | [] => []
  | x :: rest => x :: firstDedup (rest.filter (fun y => y ≠ x))
termination_by l => l.length
decreasing_by
  simp only [List.length_cons]
  exact Nat.lt_succ_of_le (List.length_filter_le _ _)

/-- The extensions with their occurrence counts in first-occurrence order:
the specified shape of the extension tally. -/
def specCounts (exts : List String) : List (String × Nat) :=
  (firstDedup exts).map (fun e => (e, exts.count e))

theorem mem_firstDedup : ∀ (l : List String) (x : String), x ∈ firstDedup l ↔ x ∈ l := by
  intro l
  induction l using firstDedup.induct with
  | case1 => simp [firstDedup]
  | case2 e rest ih =>
      intro x
      rw [firstDedup]
      by_cases hx : x = e
      · simp [hx]
      · simp only [List.mem_cons, hx, false_or, ih, List.mem_filter]
        simp [hx]

theorem bump_not_mem (e : String) :
    ∀ acc : List (String × Nat), e ∉ acc.map Prod.fst → bump acc e = acc ++ [(e, 1)] := by
  intro acc
  induction acc with
  | nil => intro _; rfl
  | cons kv rest ih =>
      intro h
      simp only [List.map_cons, List.mem_cons] at h
      push_neg at h
      rw [bump, if_neg (by simpa using fun hh : kv.1 = e => h.1 hh.symm)]
      rw [ih h.2, List.cons_append]

theorem bump_mem_nodup (e : String) :
    ∀ acc : List (String × Nat), (acc.map Prod.fst).Nodup → e ∈ acc.map Prod.fst →
      bump acc e = acc.map (fun kv => if kv.1 = e then (kv.1, kv.2 + 1) else kv) := by
  intro acc
  induction acc with
  | nil => simp
  | cons kv rest ih =>
      intro hnd h
      rw [List.map_cons, List.nodup_cons] at hnd
      by_cases hk : kv.1 = e
      · rw [bump, if_pos (by simpa using hk), List.map_cons, if_pos hk]
        congr 1
        symm
        calc rest.map (fun p => if p.1 = e then (p.1, p.2 + 1) else p)
            = rest.map id := List.map_congr_left (fun p hp => by
              rw [if_neg (fun hh : p.1 = e => hnd.1 (by
                rw [← hk] at hh
                exact hh ▸ List.mem_map_of_mem Prod.fst hp))]
              rfl)
          _ = rest := List.map_id rest
      · rw [bump, if_neg (by simpa using hk), List.map_cons, if_neg hk]
        congr 1
        exact ih hnd.2 (by
          rcases List.mem_cons.mp h with hh | hh
          · exact absurd hh.symm hk
          · exact hh)

theorem specCounts_cons (e : String) (l : List String) :
    specCounts (e :: l)
      = (e, (e :: l).count e)
        :: (firstDedup (l.filter (fun y => y ≠ e))).map (fun k => (k, (e :: l).count k)) := by
  unfold specCounts
  rw [firstDedup, List.map_cons]

theorem foldl_bump_eq :
    ∀ (l : List String) (acc : List (String × Nat)),
      (acc.map Prod.fst).Nodup →
      List.foldl bump acc l
        = acc.map (fun kv => (kv.1, kv.2 + l.count kv.1))
          ++ specCounts (l.filter (fun x => x ∉ acc.map Prod.fst)) := by
  intro l
  induction l with
  | nil =>
      intro acc _
      simp [specCounts, firstDedup]
  | cons e rest ih =>
      intro acc hnd
      rw [List.foldl_cons]
      by_cases hmem : e ∈ acc.map Prod.fst
      · rw [bump_mem_nodup e acc hnd hmem]
        have hk : (acc.map (fun kv => if kv.1 = e then (kv.1, kv.2 + 1) else kv)).map Prod.fst
            = acc.map Prod.fst := by
          rw [List.map_map]
          exact List.map_congr_left (fun kv _ => by by_cases h : kv.1 = e <;> simp [h])
        rw [ih _ (by rw [hk]; exact hnd)]
        congr 1
        · rw [List.map_map]
          apply List.map_congr_left
          intro kv _
          by_cases h : kv.1 = e
          · simp only [Function.comp_apply, if_pos h]
            rw [Prod.mk.injEq]
            refine ⟨rfl, ?_⟩
            rw [h, List.count_cons_self]
            omega
          · simp only [Function.comp_apply, if_neg h]
            rw [Prod.mk.injEq]
            refine ⟨rfl, ?_⟩
            rw [List.count_cons_of_ne h]
        · simp only [hk]
          rw [List.filter_cons, if_neg (by simpa using hmem)]
      · rw [bump_not_mem e acc hmem]
        have hk2 : ((acc ++ [(e, 1)]).map Prod.fst) = acc.map Prod.fst ++ [e] := by
          simp
        have hnd2 : ((acc ++ [(e, 1)]).map Prod.fst).Nodup := by
          rw [hk2, List.nodup_append]
          exact ⟨hnd, List.nodup_singleton e, by simpa [List.disjoint_left] using hmem⟩
        rw [ih _ hnd2]
        simp only [hk2]
        have hfilters : rest.filter (fun x => x ∉ acc.map Prod.fst ++ [e])
            = (rest.filter (fun x => x ∉ acc.map Prod.fst)).filter (fun y => y ≠ e) := by
          rw [List.filter_filter]
          apply List.filter_congr
          intro x _
          cases hd : (decide (x ∈ acc.map Prod.fst) : Bool) <;>
            cases hd2 : (decide (x = e) : Bool) <;>
            simp_all
        rw [List.filter_cons, if_pos (by simpa using hmem), List.map_append]
        rw [List.append_assoc]
        congr 1
        · apply List.map_congr_left
          intro kv hkv
          have hne : kv.1 ≠ e := fun hh =>
            hmem (by rw [← hh]; exact List.mem_map_of_mem Prod.fst hkv)
          rw [Prod.mk.injEq]
          refine ⟨rfl, ?_⟩
          rw [List.count_cons_of_ne hne]
        · simp only [List.map_cons, List.map_nil, List.cons_append, List.nil_append]
          rw [specCounts_cons e (rest.filter (fun x => x ∉ acc.map Prod.fst))]
          rw [List.count_cons_self, List.count_filter (by simpa using hmem)]
          congr 1
          · rw [Prod.mk.injEq]
            exact ⟨rfl, by omega⟩
          · rw [specCounts, hfilters]
            apply List.map_congr_left
            intro k hkmem
            have hkne : k ≠ e := by
              have h1 := (mem_firstDedup _ k).mp hkmem
              have h2 := List.of_mem_filter h1
              simpa using h2
            rw [Prod.mk.injEq]
            refine ⟨rfl, ?_⟩
            rw [List.count_cons_of_ne hkne, List.count_filter (by simpa using hkne)]

theorem tally_eq_specCounts (l : List String) : tally l = specCounts l := by
  have h := foldl_bump_eq l [] (by simp)
  simpa [tally] using h

theorem foldl_best_le :
    ∀ (l : List (String × Nat)) (acc : Nat × String),
      (∀ q ∈ l, q.2 ≤ acc.1) →
      l.foldl (fun acc kv => if kv.2 > acc.1 then (kv.2, kv.1) else acc) acc = acc := by
  intro l
  induction l with
  | nil => intro acc _; rfl
  | cons p rest ih =>
      intro acc h
      rw [List.foldl_cons, if_neg (Nat.not_lt.mpr (h p (List.mem_cons_self p rest)))]
      exact ih acc (fun q hq => h q (List.mem_cons_of_mem _ hq))

theorem find?_congr_mem {α : Type} (p q : α → Bool) :
    ∀ l : List α, (∀ x ∈ l, p x = q x) → l.find? p = l.find? q := by
  intro l
  induction l with
  | nil => intro _; rfl
  | cons a rest ih =>
      intro h
      cases hq : q a
      · rw [List.find?_cons_of_neg _ (by rw [h a (List.mem_cons_self a rest), hq]; simp),
          List.find?_cons_of_neg _ (by rw [hq]; simp)]
        exact ih (fun x hx => h x (List.mem_cons_of_mem _ hx))
      · rw [List.find?_cons_of_pos _ (by rw [h a (List.mem_cons_self a rest), hq]),
          List.find?_cons_of_pos _ hq]

theorem foldl_best_spec :
    ∀ (l : List (String × Nat)) (acc : Nat × String),
      (∃ q ∈ l, acc.1 < q.2) →
      ∃ p, l.find? (fun p => decide (acc.1 < p.2) && l.all (fun q => q.2 ≤ p.2)) = some p
        ∧ l.foldl (fun acc kv => if kv.2 > acc.1 then (kv.2, kv.1) else acc) acc
            = (p.2, p.1) := by
  intro l
  induction l with
  | nil => intro acc h; simp at h
  | cons hd rest ih =>
      intro acc hex
      by_cases h1 : acc.1 < hd.2
      · by_cases h2 : ∀ q ∈ rest, q.2 ≤ hd.2
        · refine ⟨hd, ?_, ?_⟩
          · apply List.find?_cons_of_pos
            simp only [Bool.and_eq_true, decide_eq_true_eq, List.all_cons, List.all_eq_true]
            exact ⟨h1, by simpa using Nat.le_refl hd.2, fun q hq => by simpa using h2 q hq⟩
          · rw [List.foldl_cons, if_pos h1]
            exact foldl_best_le rest (hd.2, hd.1) (by simpa using h2)
        · push_neg at h2
          obtain ⟨q0, hq0mem, hq0⟩ := h2
          obtain ⟨p, hfind, hfold⟩ := ih (hd.2, hd.1) ⟨q0, hq0mem, hq0⟩
          refine ⟨p, ?_, ?_⟩
          · rw [List.find?_cons_of_neg _ ?_]
            · rw [find?_congr_mem _ _ rest ?_]
              · exact hfind
              · intro x hx
                rw [List.all_cons]
                cases hall : rest.all (fun q => q.2 ≤ x.2)
                · simp
                · have hx2 : hd.2 < x.2 := by
                    have hle := List.all_eq_true.mp hall q0 hq0mem
                    have hle2 : q0.2 ≤ x.2 := by simpa using hle
                    omega
                  have hax : acc.1 < x.2 := by omega
                  simp [hx2, hax, Nat.le_of_lt hx2]
            · intro hcon
              rw [Bool.and_eq_true, List.all_cons, Bool.and_eq_true, List.all_eq_true] at hcon
              have hq0le : q0.2 ≤ hd.2 := of_decide_eq_true (hcon.2.2 q0 hq0mem)
              omega
          · rw [List.foldl_cons, if_pos h1]
            exact hfold
      · obtain ⟨q0, hq0mem, hq0⟩ := hex
        have hq0rest : q0 ∈ rest := by
          rcases List.mem_cons.mp hq0mem with h | h
          · rw [h] at hq0; exact absurd hq0 h1
          · exact h
        obtain ⟨p, hfind, hfold⟩ := ih acc ⟨q0, hq0rest, hq0⟩
        refine ⟨p, ?_, ?_⟩
        · rw [List.find?_cons_of_neg _ (by simp [h1])]
          rw [find?_congr_mem _ _ rest ?_]
          · exact hfind
          · intro x hx
            rw [List.all_cons]
            cases hall : rest.all (fun q => q.2 ≤ x.2)
            · simp
            · by_cases hax : acc.1 < x.2
              · have hd_le : hd.2 ≤ x.2 := by omega
                simp [hax, hd_le]
              · simp [hax]
        · rw [List.foldl_cons, if_neg h1]
          exact hfold

theorem specCounts_pos (l : List String) : ∀ q ∈ specCounts l, 1 ≤ q.2 := by
  intro q hq
  unfold specCounts at hq
  obtain ⟨e, he, rfl⟩ := List.mem_map.mp hq
  exact List.count_pos_iff.mpr ((mem_firstDedup l e).mp he)

theorem specCounts_key_mem (l : List String) (p : String × Nat) (hp : p ∈ specCounts l) :
    p.1 ∈ l := by
  unfold specCounts at hp
  obtain ⟨e, he, rfl⟩ := List.mem_map.mp hp
  exact (mem_firstDedup l e).mp he

theorem mem_extsOf (files : List String) (ext : String) (h : ext ∈ extsOf files) :
    ∃ file ∈ files, ext = jsToLower (extname file) := by
  unfold extsOf at h
  obtain ⟨file, hfile, heq⟩ := List.mem_filterMap.mp h
  refine ⟨file, hfile, ?_⟩
  dsimp only at heq
  by_cases hc : jsToLower (extname file) = ""
  · rw [if_pos hc] at heq
    cases heq
  · rw [if_neg hc] at heq
    cases heq
    rfl

theorem languageMap_getD_ne (k : String) :
    (objGet? languageMap k).getD "Unknown" ≠ "" := by
  cases h : objGet? languageMap k with
  | none => simp
  | some v =>
      unfold objGet? at h
      obtain ⟨kv, hfind, rfl⟩ := Option.map_eq_some'.mp h
      have hmem := List.mem_of_find?_eq_some hfind
      have hall := (by decide : languageMap.all (fun kv => !(kv.2 == "")) = true)
      have := List.all_eq_true.mp hall kv hmem
      simpa using this

/-- C4: detectLanguage returns the table label of the extension with the
strictly greatest count; a tie goes to the first-encountered extension (the
first entry of the first-occurrence tally that no other entry exceeds); when
no file yields an extension mapped by the table it returns exactly Unknown;
the result is never the empty string; and the function is pure, so identical
inputs give identical outputs. -/
theorem C4_detectLanguage_correct (files : List String) :
    (detectLanguage files
        = match (specCounts (extsOf files)).find?
            (fun p => (specCounts (extsOf files)).all (fun q => q.2 ≤ p.2)) with
          | some p => (objGet? languageMap p.1).getD "Unknown"
          | none => "Unknown")
      ∧ ((∀ file ∈ files, objGet? languageMap (jsToLower (extname file)) = none) →
          detectLanguage files = "Unknown")
      ∧ detectLanguage files ≠ ""
      ∧ (∀ files2 : List String, files2 = files →
          detectLanguage files2 = detectLanguage files) := by
  have hc1 : detectLanguage files
      = match (specCounts (extsOf files)).find?
          (fun p => (specCounts (extsOf files)).all (fun q => q.2 ≤ p.2)) with
        | some p => (objGet? languageMap p.1).getD "Unknown"
        | none => "Unknown" := by
    unfold detectLanguage
    rw [tally_eq_specCounts]
    have hpos := specCounts_pos (extsOf files)
    cases hemp : specCounts (extsOf files) with
    | nil => rfl
    | cons hd tl =>
        rw [hemp] at hpos
        have hex : ∃ q ∈ hd :: tl, (0 : Nat) < q.2 :=
          ⟨hd, List.mem_cons_self hd tl, hpos hd (List.mem_cons_self hd tl)⟩
        obtain ⟨p, hfind, hfold⟩ := foldl_best_spec (hd :: tl) (0, "") hex
        rw [hfold]
        have hfind2 : (hd :: tl).find? (fun p => (hd :: tl).all (fun q => q.2 ≤ p.2))
            = some p := by
          rw [find?_congr_mem _ _ (hd :: tl) ?_]
          · exact hfind
          · intro x hx
            have h0 : (0 : Nat) < x.2 := hpos x hx
            simp [h0]
        rw [hfind2]
  have hc2 : (∀ file ∈ files, objGet? languageMap (jsToLower (extname file)) = none) →
      detectLanguage files = "Unknown" := by
    intro hnone
    rw [hc1]
    cases hfind : (specCounts (extsOf files)).find?
        (fun p => (specCounts (extsOf files)).all (fun q => q.2 ≤ p.2)) with
    | none => rfl
    | some p =>
        show (objGet? languageMap p.1).getD "Unknown" = "Unknown"
        have hpmem := List.mem_of_find?_eq_some hfind
        have hkey := specCounts_key_mem _ p hpmem
        obtain ⟨file, hfile, heq⟩ := mem_extsOf files p.1 hkey
        rw [heq, hnone file hfile]
        rfl
  refine ⟨hc1, hc2, ?_, fun files2 h => by rw [h]⟩
  rw [hc1]
  cases hfind : (specCounts (extsOf files)).find?
      (fun p => (specCounts (extsOf files)).all (fun q => q.2 ≤ p.2)) with
  | none =>
      show ("Unknown" : String) ≠ ""
      decide
  | some p =>
      show (objGet? languageMap p.1).getD "Unknown" ≠ ""
      exact languageMap_getD_ne p.1

/-- Witness for C4's conditional conjuncts on a concrete unrecognized file. -/
theorem C4_detectLanguage_correct_witness :
    detectLanguage ["a.bin"] = "Unknown"
      ∧ detectLanguage ["a.bin"] = detectLanguage ["a.bin"] := by
  constructor
  · exact (C4_detectLanguage_correct ["a.bin"]).2.1 (by decide)
  · exact (C4_detectLanguage_correct ["a.bin"]).2.2.2 ["a.bin"] rfl

/-! ## FileSystemAnalyzer.scanDirectoryStructure (src/unnamed/part_001) -/

/-- Node type of a DirectoryNode. -/
inductive NodeType where
  | file
  | directory
  deriving DecidableEq, Repr

/-- DirectoryNode (src/src/types/index.ts): one entry of the scanned tree. -/
inductive DirectoryNode where
  | mk (name : String) (type : NodeType) (children : List DirectoryNode) (path : String)

def DirectoryNode.name : DirectoryNode → String
  | .mk n _ _ _ => n

def DirectoryNode.type : DirectoryNode → NodeType
  | .mk _ t _ _ => t

def DirectoryNode.children : DirectoryNode → List DirectoryNode
  | .mk _ _ c _ => c

def DirectoryNode.path : DirectoryNode → String
  | .mk _ _ _ p => p

/-- Model of Node path.basename: the last path component, ignoring trailing
separators. -/
def jsBasename (s : String) : String :=
  String.mk (((s.toList.reverse.dropWhile (fun c => c = '/')).takeWhile
    (fun c => c ≠ '/')).reverse)

/-- Model of Node path.join for one extra component. -/
def joinPath (a b : String) : String := a ++ "/" ++ b

/-- Model of JavaScript String.prototype.startsWith, by character lists. -/
def jsStartsWith (s pre : String) : Bool :=
  pre.toList.isPrefixOf s.toList

/-- The filesystem as seen by the scanner: a file (with its content), a
directory with named entries and a flag telling whether its listing succeeds,
or an entry whose stat call raises an access error. -/
inductive FsNode where
  | file (content : String)
  | dir (entries : List (String × FsNode)) (readable : Bool)
  | inaccessible

/-- FileSystemAnalyzer.scanDirectoryStructure: none models a thrown access
error; a file gives a leaf node at once; a directory gives a node whose
children stay empty once currentDepth has reached maxDepth or when the
listing fails, and otherwise collects the recursive scans of the entries,
skipping dot entries other than .gitignore, node_modules, dist, and every
entry whose own scan raises. -/
def scanDirectoryStructure (rootPath : String) (fsn : FsNode)
    (maxDepth : Nat) (currentDepth : Nat) : Option DirectoryNode :=
  match fsn with
  | .inaccessible => none
  | .file _ => some (.mk (jsBasename rootPath) NodeType.file [] rootPath)
  | .dir entries readable =>
      if currentDepth ≥ maxDepth then
        some (.mk (jsBasename rootPath) NodeType.directory [] rootPath)
      else if readable then
        some (.mk (jsBasename rootPath) NodeType.directory
          (entries.attach.filterMap (fun x =>
            if jsStartsWith x.1.1 "." ∧ x.1.1 ≠ ".gitignore" then none
            else if x.1.1 = "node_modules" then none
            else if x.1.1 = "dist" then none
            else scanDirectoryStructure (joinPath rootPath x.1.1) x.1.2 maxDepth
              (currentDepth + 1)))
          rootPath)
      else
        some (.mk (jsBasename rootPath) NodeType.directory [] rootPath)
termination_by sizeOf fsn
decreasing_by
  obtain ⟨⟨nm, child⟩, hx⟩ := x
  have h1 := List.sizeOf_lt_of_mem hx
  simp only [Prod.mk.sizeOf_spec] at h1
  simp only [FsNode.dir.sizeOf_spec]
  omega

/-- The name-based inclusion rule of the scanner loop: drop dot-prefixed
entries other than .gitignore, and the generated directories node_modules
and dist. -/
def keepName (entry : String) : Bool :=
  !(jsStartsWith entry "." && entry != ".gitignore")
    && entry != "node_modules" && entry != "dist"

/-- C6: a file path yields a leaf node (type file, no children) whatever the
depth arguments are, and a directory reached with currentDepth at or beyond
maxDepth yields a directory node that is still created but has no children. -/
theorem C6_scan_depth_limit :
    (∀ (rootPath content : String) (maxDepth currentDepth : Nat),
        scanDirectoryStructure rootPath (FsNode.file content) maxDepth currentDepth
          = some (DirectoryNode.mk (jsBasename rootPath) NodeType.file [] rootPath))
      ∧ (∀ (rootPath : String) (entries : List (String × FsNode)) (readable : Bool)
            (maxDepth currentDepth : Nat), currentDepth ≥ maxDepth →
          scanDirectoryStructure rootPath (FsNode.dir entries readable) maxDepth currentDepth
            = some (DirectoryNode.mk (jsBasename rootPath) NodeType.directory [] rootPath)) := by
  constructor
  · intro rootPath content maxDepth currentDepth
    rw [scanDirectoryStructure.eq_def]
  · intro rootPath entries readable maxDepth currentDepth h
    rw [scanDirectoryStructure.eq_def]
    simp only [if_pos h]

/-- Witness for C6's conditional conjunct at concrete inputs. -/
theorem C6_scan_depth_limit_witness :
    scanDirectoryStructure "/p/sub" (FsNode.dir [("a", FsNode.file "x")] true) 3 3
      = some (DirectoryNode.mk "sub" NodeType.directory [] "/p/sub") := by
  have h := C6_scan_depth_limit.2 "/p/sub" [("a", FsNode.file "x")] true 3 3 (Nat.le_refl 3)
  rw [h]
  rw [show jsBasename "/p/sub" = "sub" from rfl]

theorem filterMap_if_keep {α β : Type} (keep : α → Bool) (g : α → Option β) :
    ∀ l : List α,
      l.filterMap (fun x => if keep x then g x else none)
        = (l.filter keep).filterMap g := by
  intro l
  induction l with
  | nil => rfl
  | cons a rest ih =>
      rw [List.filterMap_cons, List.filter_cons]
      cases hk : keep a
      · rw [if_neg (by simp [hk]), if_neg (by simp [hk])]
        exact ih
      · rw [if_pos (by simp [hk]), if_pos (by simp [hk]), List.filterMap_cons]
        cases g a <;> simp [ih]

theorem scan_entry_eq (rootPath : String) (maxDepth currentDepth : Nat)
    (p : String × FsNode) :
    (if jsStartsWith p.1 "." ∧ p.1 ≠ ".gitignore" then none
     else if p.1 = "node_modules" then none
     else if p.1 = "dist" then none
     else scanDirectoryStructure (joinPath rootPath p.1) p.2 maxDepth (currentDepth + 1))
    = (if keepName p.1 then
        scanDirectoryStructure (joinPath rootPath p.1) p.2 maxDepth (currentDepth + 1)
      else none) := by
  by_cases h1 : jsStartsWith p.1 "." ∧ p.1 ≠ ".gitignore"
  · rw [if_pos h1, if_neg (by simp [keepName, h1.1, h1.2])]
  · rw [if_neg h1]
    by_cases h2 : p.1 = "node_modules"
    · rw [if_pos h2, if_neg (by simp [keepName, h2])]
    · rw [if_neg h2]
      by_cases h3 : p.1 = "dist"
      · rw [if_pos h3, if_neg (by simp [keepName, h3])]
      · rw [if_neg h3, if_pos ?_]
        simp only [keepName, Bool.and_eq_true, Bool.not_eq_true', bne_iff_ne]
        refine ⟨⟨?_, by simpa using h2⟩, by simpa using h3⟩
        by_cases hs : jsStartsWith p.1 "."
        · have : p.1 = ".gitignore" := by
            by_contra hn
            exact h1 ⟨hs, hn⟩
          simp [hs, this]
        · simp [hs]

/-- C7: for a readable directory scanned below the depth bound, the children
are exactly the successful recursive scans of the entries that survive the
name rule, in order: dot-prefixed entries other than .gitignore,
node_modules, dist are excluded by name, and an entry whose own scan raises
an access error is silently dropped while its siblings are kept
(inaccessible entries scan to none). -/
theorem C7_scan_exclusions (rootPath : String) (entries : List (String × FsNode))
    (maxDepth currentDepth : Nat) (h : currentDepth < maxDepth) :
    (∃ node, scanDirectoryStructure rootPath (FsNode.dir entries true) maxDepth currentDepth
          = some node
        ∧ node.children = (entries.filter (fun p => keepName p.1)).filterMap
            (fun p => scanDirectoryStructure (joinPath rootPath p.1) p.2 maxDepth
              (currentDepth + 1)))
      ∧ keepName ".gitignore" = true
      ∧ (∀ entry : String, jsStartsWith entry "." = true → entry ≠ ".gitignore" →
          keepName entry = false)
      ∧ keepName "node_modules" = false
      ∧ keepName "dist" = false
      ∧ (∀ (p : String) (md cd : Nat),
          scanDirectoryStructure p FsNode.inaccessible md cd = none) := by
  refine ⟨?_, by decide, ?_, by decide, by decide, ?_⟩
  · have hscan : scanDirectoryStructure rootPath (FsNode.dir entries true) maxDepth currentDepth
        = some (DirectoryNode.mk (jsBasename rootPath) NodeType.directory
            (entries.attach.filterMap (fun x =>
              if jsStartsWith x.1.1 "." ∧ x.1.1 ≠ ".gitignore" then none
              else if x.1.1 = "node_modules" then none
              else if x.1.1 = "dist" then none
              else scanDirectoryStructure (joinPath rootPath x.1.1) x.1.2 maxDepth
                (currentDepth + 1))) rootPath) := by
      rw [scanDirectoryStructure.eq_def]
      simp only [if_neg (Nat.not_le.mpr h), if_pos rfl]
      rw [if_pos trivial]
    refine ⟨_, hscan, ?_⟩
    show (entries.attach.filterMap (fun x =>
        if jsStartsWith x.1.1 "." ∧ x.1.1 ≠ ".gitignore" then none
        else if x.1.1 = "node_modules" then none
        else if x.1.1 = "dist" then none
        else scanDirectoryStructure (joinPath rootPath x.1.1) x.1.2 maxDepth
          (currentDepth + 1))) = _
    rw [List.filterMap_subtype]
    · rw [List.unattach_attach]
      rw [List.filterMap_congr
        (fun p _ => scan_entry_eq rootPath maxDepth currentDepth p)]
      exact filterMap_if_keep (fun p => keepName p.1) _ entries
    · exact fun x h => rfl
  · intro entry hs hne
    have : jsStartsWith entry "." ∧ entry ≠ ".gitignore" := ⟨hs, hne⟩
    simp [keepName, hs, hne]
  · intro p md cd
    rw [scanDirectoryStructure.eq_def]

/-- Witness for C7 at a concrete directory listing with every exclusion kind. -/
theorem C7_scan_exclusions_witness :
    ∃ node,
      scanDirectoryStructure "/p"
          (FsNode.dir [(".git", FsNode.dir [] true), (".gitignore", FsNode.file "x"),
            ("node_modules", FsNode.dir [] true), ("dist", FsNode.dir [] true),
            ("broken", FsNode.inaccessible), ("src", FsNode.dir [] true)] true) 3 0
        = some node
      ∧ node.children
          = ([( ".gitignore", FsNode.file "x"), ("broken", FsNode.inaccessible),
              ("src", FsNode.dir [] true)].filter (fun p => keepName p.1)).filterMap
              (fun p => scanDirectoryStructure (joinPath "/p" p.1) p.2 3 1) := by
  obtain ⟨node, heq, hch⟩ := (C7_scan_exclusions "/p"
    [(".git", FsNode.dir [] true), (".gitignore", FsNode.file "x"),
      ("node_modules", FsNode.dir [] true), ("dist", FsNode.dir [] true),
      ("broken", FsNode.inaccessible), ("src", FsNode.dir [] true)] 3 0
    (by decide)).1
  refine ⟨node, heq, ?_⟩
  rw [hch]
  rw [show ([(".git", FsNode.dir [] true), (".gitignore", FsNode.file "x"),
      ("node_modules", FsNode.dir [] true), ("dist", FsNode.dir [] true),
      ("broken", FsNode.inaccessible), ("src", FsNode.dir [] true)].filter
        (fun p => keepName p.1))
    = ([(".gitignore", FsNode.file "x"), ("broken", FsNode.inaccessible),
        ("src", FsNode.dir [] true)].filter (fun p => keepName p.1)) from rfl]

/-! ## ContentGenerator.formatTree (src/src/ContentGenerator.ts) -/

/-- JavaScript String.prototype.repeat: the fixed-width indent unit repeated
per depth level. -/
def strRepeat (s : String) (n : Nat) : String :=
  strConcat (List.replicate n s)

/-- ContentGenerator.formatTree: nothing beyond maxDepth; one line (indent
unit repeated depth times, then the name, then a slash suffix for a
directory) for every node except the depth-0 root; the children of a
directory render below it with depth + 1. -/
def formatTree (node : DirectoryNode) (depth maxDepth : Nat) : String :=
  match node with
  | .mk nm tp children _ =>
      if depth > maxDepth then ""
      else
        (if depth > 0 then
          strRepeat "  " depth ++ nm
            ++ (if tp = NodeType.directory then "/" else "") ++ "\n"
        else "")
        ++ (if tp = NodeType.directory then
            strConcat (children.attach.map (fun c => formatTree c.1 (depth + 1) maxDepth))
          else "")
termination_by sizeOf node
decreasing_by
  obtain ⟨c1, hc⟩ := c
  have h1 := List.sizeOf_lt_of_mem hc
  simp only [DirectoryNode.mk.sizeOf_spec]
  omega

/-- The single line a node at the given depth contributes to the rendered
tree: the indent unit repeated per level, the name, a separator suffix for
directories. -/
def lineFor (depth : Nat) (node : DirectoryNode) : String :=
  strRepeat "  " depth ++ node.name
    ++ (if node.type = NodeType.directory then "/" else "")

/-- The lines of the rendered tree in order: none beyond maxDepth, none for
the depth-0 root, one per remaining node, preorder. -/
def specLines (node : DirectoryNode) (depth maxDepth : Nat) : List String :=
  match node with
  | .mk nm tp children pth =>
      if depth > maxDepth then []
      else
        (if depth > 0 then [lineFor depth (.mk nm tp children pth)] else [])
        ++ (if tp = NodeType.directory then
            (children.attach.map (fun c => specLines c.1 (depth + 1) maxDepth)).flatten
          else [])
termination_by sizeOf node
decreasing_by
  obtain ⟨c1, hc⟩ := c
  have h1 := List.sizeOf_lt_of_mem hc
  simp only [DirectoryNode.mk.sizeOf_spec]
  omega

theorem strConcat_append (a b : List String) :
    strConcat (a ++ b) = strConcat a ++ strConcat b := by
  induction a with
  | nil => simp [strConcat]
  | cons x xs ih => rw [List.cons_append, strConcat_cons, strConcat_cons, ih,
      String.append_assoc]

theorem strConcat_map_flatten (f : String → String) :
    ∀ L : List (List String),
      strConcat ((L.flatten).map f) = strConcat (L.map (fun x => strConcat (x.map f))) := by
  intro L
  induction L with
  | nil => rfl
  | cons x xs ih =>
      rw [List.flatten_cons, List.map_append, strConcat_append, List.map_cons,
        strConcat_cons, ih]

theorem formatTree_eq_specLines_bounded :
    ∀ (n : Nat) (node : DirectoryNode), sizeOf node ≤ n → ∀ (depth maxDepth : Nat),
      formatTree node depth maxDepth
        = strConcat ((specLines node depth maxDepth).map (fun l => l ++ "\n")) := by
  intro n
  induction n with
  | zero =>
      intro node h
      obtain ⟨nm, tp, children, pth⟩ := node
      simp only [DirectoryNode.mk.sizeOf_spec] at h
      omega
  | succ n ih =>
      intro node hle depth maxDepth
      obtain ⟨nm, tp, children, pth⟩ := node
      rw [formatTree.eq_def, specLines.eq_def]
      dsimp only
      by_cases hd : depth > maxDepth
      · rw [if_pos hd, if_pos hd]
        rfl
      · rw [if_neg hd, if_neg hd, List.map_append, strConcat_append]
        congr 1
        · by_cases h0 : depth > 0
          · rw [if_pos h0, if_pos h0, List.map_cons, List.map_nil, strConcat_cons]
            simp only [lineFor, DirectoryNode.name, DirectoryNode.type, strConcat,
              String.append_empty]
          · rw [if_neg h0, if_neg h0]
            rfl
        · by_cases ht : tp = NodeType.directory
          · rw [if_pos ht, if_pos ht, strConcat_map_flatten, List.map_map]
            congr 1
            apply List.map_congr_left
            intro c _
            have hcsz : sizeOf c.1 ≤ n := by
              have h1 := List.sizeOf_lt_of_mem c.2
              simp only [DirectoryNode.mk.sizeOf_spec] at hle
              omega
            exact ih c.1 hcsz (depth + 1) maxDepth
          · rw [if_neg ht, if_neg ht]
            rfl

theorem formatTree_eq_specLines (node : DirectoryNode) (depth maxDepth : Nat) :
    formatTree node depth maxDepth
      = strConcat ((specLines node depth maxDepth).map (fun l => l ++ "\n")) :=
  formatTree_eq_specLines_bounded (sizeOf node) node (Nat.le_refl _) depth maxDepth

/-- Prune every node strictly more than the given number of levels below:
with argument zero the node keeps no children. -/
def pruneBelow : Nat → DirectoryNode → DirectoryNode
  | 0, node => .mk node.name node.type [] node.path
  | k + 1, node => .mk node.name node.type (node.children.map (pruneBelow k)) node.path

theorem strConcat_map_all_empty {α : Type} (f : α → String) :
    ∀ l : List α, (∀ x ∈ l, f x = "") → strConcat (l.map f) = "" := by
  intro l
  induction l with
  | nil => intro _; rfl
  | cons a rest ih =>
      intro h
      rw [List.map_cons, strConcat_cons, h a (List.mem_cons_self a rest),
        ih (fun x hx => h x (List.mem_cons_of_mem _ hx))]
      rfl

theorem formatTree_beyond (node : DirectoryNode) (depth maxDepth : Nat)
    (h : depth > maxDepth) : formatTree node depth maxDepth = "" := by
  obtain ⟨nm, tp, children, pth⟩ := node
  rw [formatTree.eq_def]
  dsimp only
  rw [if_pos h]

theorem attach_map_fn {α β : Type} (l : List α) (g : α → β) :
    l.attach.map (fun c => g c.1) = l.map g := by
  simp

theorem formatTree_unfold (nm : String) (tp : NodeType) (children : List DirectoryNode)
    (pth : String) (depth maxDepth : Nat) (h : ¬ depth > maxDepth) :
    formatTree (.mk nm tp children pth) depth maxDepth
      = (if depth > 0 then
          strRepeat "  " depth ++ nm
            ++ (if tp = NodeType.directory then "/" else "") ++ "\n"
        else "")
        ++ (if tp = NodeType.directory then
            strConcat (children.map (fun c => formatTree c (depth + 1) maxDepth))
          else "") := by
  rw [formatTree.eq_def]
  dsimp only
  rw [if_neg h]
  congr 1
  by_cases ht : tp = NodeType.directory
  · rw [if_pos ht, if_pos ht]
    congr 1
    exact attach_map_fn children (fun c => formatTree c (depth + 1) maxDepth)
  · rw [if_neg ht, if_neg ht]

theorem formatTree_prune_bounded :
    ∀ (n : Nat) (node : DirectoryNode), sizeOf node ≤ n →
      ∀ (depth maxDepth : Nat), depth ≤ maxDepth →
      formatTree node depth maxDepth
        = formatTree (pruneBelow (maxDepth - depth) node) depth maxDepth := by
  intro n
  induction n with
  | zero =>
      intro node h
      obtain ⟨nm, tp, children, pth⟩ := node
      simp only [DirectoryNode.mk.sizeOf_spec] at h
      omega
  | succ n ih =>
      intro node hle depth maxDepth hdm
      obtain ⟨nm, tp, children, pth⟩ := node
      have hnd : ¬ depth > maxDepth := by omega
      by_cases hz : maxDepth - depth = 0
      · rw [hz]
        rw [show pruneBelow 0 (DirectoryNode.mk nm tp children pth)
            = DirectoryNode.mk nm tp [] pth from rfl]
        rw [formatTree_unfold nm tp children pth depth maxDepth hnd,
          formatTree_unfold nm tp [] pth depth maxDepth hnd]
        congr 1
        by_cases ht : tp = NodeType.directory
        · rw [if_pos ht, if_pos ht, List.map_nil]
          rw [strConcat_map_all_empty (fun c => formatTree c (depth + 1) maxDepth) children
            (fun c _ => formatTree_beyond c (depth + 1) maxDepth (by omega))]
          rfl
        · rw [if_neg ht, if_neg ht]
      · obtain ⟨k, hk⟩ : ∃ k, maxDepth - depth = k + 1 :=
          ⟨maxDepth - depth - 1, by omega⟩
        rw [hk]
        rw [show pruneBelow (k + 1) (DirectoryNode.mk nm tp children pth)
            = DirectoryNode.mk nm tp (children.map (pruneBelow k)) pth from rfl]
        rw [formatTree_unfold nm tp children pth depth maxDepth hnd,
          formatTree_unfold nm tp (children.map (pruneBelow k)) pth depth maxDepth hnd]
        congr 1
        by_cases ht : tp = NodeType.directory
        · rw [if_pos ht, if_pos ht, List.map_map]
          congr 1
          apply List.map_congr_left
          intro c hc
          have hcsz : sizeOf c ≤ n := by
            have h1 := List.sizeOf_lt_of_mem hc
            simp only [DirectoryNode.mk.sizeOf_spec] at hle
            omega
          have heq := ih c hcsz (depth + 1) maxDepth (by omega)
          rw [show maxDepth - (depth + 1) = k from by omega] at heq
          exact heq
        · rw [if_neg ht, if_neg ht]

/-- C8: the rendered tree consists of one line per node in preorder, indented
by the two-space unit repeated per depth level, directory lines suffixed with
the path separator; the depth-0 root contributes no line; every node at depth
strictly beyond maxDepth renders nothing; and rendering a tree equals
rendering the tree pruned at the depth bound, so a depth-5 tree rendered with
maxDepth 2 contains no lines from depth-3-or-deeper nodes. -/
theorem C8_formatTree_correct :
    (∀ (node : DirectoryNode) (depth maxDepth : Nat),
        formatTree node depth maxDepth
          = strConcat ((specLines node depth maxDepth).map (fun l => l ++ "\n")))
      ∧ (∀ (node : DirectoryNode) (maxDepth : Nat), node.type = NodeType.directory →
          formatTree node 0 maxDepth
            = strConcat (node.children.map (fun c => formatTree c 1 maxDepth)))
      ∧ (∀ (node : DirectoryNode) (depth maxDepth : Nat), depth > maxDepth →
          formatTree node depth maxDepth = "")
      ∧ (∀ (node : DirectoryNode) (depth maxDepth : Nat), depth ≤ maxDepth →
          formatTree node depth maxDepth
            = formatTree (pruneBelow (maxDepth - depth) node) depth maxDepth) := by
  refine ⟨formatTree_eq_specLines, ?_, formatTree_beyond,
    fun node depth maxDepth h =>
      formatTree_prune_bounded (sizeOf node) node (Nat.le_refl _) depth maxDepth h⟩
  intro node maxDepth ht
  obtain ⟨nm, tp, children, pth⟩ := node
  simp only [DirectoryNode.type] at ht
  simp only [DirectoryNode.children]
  rw [formatTree_unfold nm tp children pth 0 maxDepth (by omega)]
  rw [if_neg (by omega), if_pos ht]
  rw [String.empty_append]

/-- A depth-5 chain of directories ending in a file, used as the concrete
depth-bound example. -/
def exTree : DirectoryNode :=
  .mk "root" NodeType.directory
    [.mk "a" NodeType.directory
      [.mk "b" NodeType.directory
        [.mk "c" NodeType.directory
          [.mk "d" NodeType.directory
            [.mk "e" NodeType.file [] "/r/a/b/c/d/e"] "/r/a/b/c/d"] "/r/a/b/c"]
        "/r/a/b"] "/r/a"] "/r"

/-- Witness for C8's conditional conjuncts on the depth-5 example tree. -/
theorem C8_formatTree_correct_witness :
    formatTree exTree 0 2 = strConcat (exTree.children.map (fun c => formatTree c 1 2))
      ∧ formatTree exTree 3 2 = ""
      ∧ formatTree exTree 0 2 = formatTree (pruneBelow 2 exTree) 0 2 := by
  refine ⟨C8_formatTree_correct.2.1 exTree 2 rfl,
    C8_formatTree_correct.2.2.1 exTree 3 2 (by omega), ?_⟩
  exact C8_formatTree_correct.2.2.2 exTree 0 2 (by omega)

/-! ## FileSystemAnalyzer.findDependencyManifests and analyzeProject
(src/unnamed/part_001) -/

/-- The fields of a parsed package.json that the analyzer reads; each may be
absent from the JSON object. -/
structure NpmPackage where
  name : Option String
  description : Option String
  dependencies : List String
  scripts : List (String × String)
  main : Option String
  bin : Option String
  deriving DecidableEq, Repr

/-- JavaScript value-or-fallback on a string field: the fallback replaces an
absent or empty (falsy) value. -/
def jsOrStr (v : Option String) (fallback : String) : String :=
  match v with
  | some s => if s = "" then fallback else s
  | none => fallback

/-- JavaScript truthiness filter on an optional string: an empty string
counts as absent. -/
def jsTruthyOpt (v : Option String) : Option String :=
  match v with
  | some s => if s = "" then none else some s
  | none => none

/-- Helper of jsSplitNl: split a character list at every newline. -/
def splitNlAux : List Char → List Char → List String
  | [], acc => [String.mk acc.reverse]
  | c :: rest, acc =>
      if c = '\n' then String.mk acc.reverse :: splitNlAux rest []
      else splitNlAux rest (c :: acc)

/-- Model of JavaScript String.prototype.split with separator newline. -/
def jsSplitNl (s : String) : List String :=
  splitNlAux s.toList []

/-- The part of the cargo regular expression after the key name: optional
whitespace, an equals sign, optional whitespace, then a non-empty
double-quoted value, whose contents are captured. -/
def quotedCapture (s4 : List Char) : Option String :=
  if (s4.takeWhile (fun c => c ≠ '"')) = [] then none
  else
    match s4.drop (s4.takeWhile (fun c => c ≠ '"')).length with
    | '"' :: _ => some (String.mk (s4.takeWhile (fun c => c ≠ '"')))
    | _ => none

def matchAfterKey (s : List Char) : Option String :=
  match s.dropWhile wsChar with
  | '=' :: s2 =>
      (match s2.dropWhile wsChar with
       | '"' :: s4 => quotedCapture s4
       | _ => none)
  | _ => none

/-- First match of the cargo key pattern anywhere in the text, as the regex
match over the whole file content does. -/
def scanForKey (key : List Char) : List Char → Option String
  | [] => none
  | c :: rest =>
      if (c :: rest).take key.length = key then
        match matchAfterKey ((c :: rest).drop key.length) with
        | some v => some v
        | none => scanForKey key rest
      else scanForKey key rest

/-- The project root as seen by findDependencyManifests and analyzeProject:
the scan tree below the root, and the three probed manifest files.
packageJson is none when the file is absent, some none when it is present
but not valid JSON, and some (some p) when it parses. -/
structure ProjectFs where
  rootPath : String
  root : FsNode
  packageJson : Option (Option NpmPackage)
  requirementsTxt : Option String
  cargoToml : Option String

/-- FileSystemAnalyzer.findDependencyManifests: probe package.json,
requirements.txt and Cargo.toml at the root in that fixed order; a missing
file or invalid JSON contributes nothing. -/
def findDependencyManifests (fs : ProjectFs) : List DependencyManifest :=
  (match fs.packageJson with
    | some (some p) =>
        [{ type := ManifestType.npm,
           filePath := joinPath fs.rootPath "package.json",
           projectName := jsOrStr p.name (jsBasename fs.rootPath),
           description := jsOrStr p.description "",
           dependencies := p.dependencies }]
    | some none => []
    | none => [])
  ++ (match fs.requirementsTxt with
    | some content =>
        [{ type := ManifestType.pip,
           filePath := joinPath fs.rootPath "requirements.txt",
           projectName := jsBasename fs.rootPath,
           description := "",
           dependencies := (jsSplitNl content).filter
             (fun line => jsTrim line ≠ "" ∧ ¬ jsStartsWith line "#") }]
    | none => [])
  ++ (match fs.cargoToml with
    | some content =>
        [{ type := ManifestType.cargo,
           filePath := joinPath fs.rootPath "Cargo.toml",
           projectName := (scanForKey "name".toList content.toList).getD
             (jsBasename fs.rootPath),
           description := (scanForKey "description".toList content.toList).getD "",
           dependencies := [] }]
    | none => [])

/-- FileSystemAnalyzer.collectFiles: the paths of the file leaves of the
tree, in preorder. -/
def collectFiles (node : DirectoryNode) : List String :=
  match node with
  | .mk _ tp children pth =>
      if tp = NodeType.file then [pth]
      else (children.attach.map (fun c => collectFiles c.1)).flatten
termination_by sizeOf node
decreasing_by
  obtain ⟨c1, hc⟩ := c
  have h1 := List.sizeOf_lt_of_mem hc
  simp only [DirectoryNode.mk.sizeOf_spec]
  omega

/-- ProjectMetadata (src/src/types/index.ts); the structure field is named
projectStructure here. -/
structure ProjectMetadata where
  name : String
  description : String
  language : String
  entryPoint : Option String
  scripts : List (String × String)
  dependencies : List DependencyManifest
  projectStructure : DirectoryNode

/-- FileSystemAnalyzer.analyzeProject: scan the tree (throwing propagates as
none), detect the language of the collected files, find the manifests, and
derive name and description from the first manifest with or-fallbacks to the
directory base name and the empty string; scripts and entryPoint re-read the
npm manifest when one was detected. -/
def analyzeProject (fs : ProjectFs) : Option ProjectMetadata :=
  match scanDirectoryStructure fs.rootPath fs.root 3 0 with
  | none => none
  | some structure0 =>
      some {
        name :=
          match (findDependencyManifests fs).head? with
          | some m => if m.projectName = "" then jsBasename fs.rootPath else m.projectName
          | none => jsBasename fs.rootPath,
        description :=
          match (findDependencyManifests fs).head? with
          | some m => m.description
          | none => "",
        language := detectLanguage (collectFiles structure0),
        entryPoint :=
          match (findDependencyManifests fs).find?
              (fun d => d.type = ManifestType.npm) with
          | some _ =>
              (match fs.packageJson with
               | some (some p) =>
                   (match jsTruthyOpt p.main with
                    | some s => some s
                    | none => jsTruthyOpt p.bin)
               | _ => none)
          | none => none,
        scripts :=
          match (findDependencyManifests fs).find?
              (fun d => d.type = ManifestType.npm) with
          | some _ =>
              (match fs.packageJson with
               | some (some p) => p.scripts
               | _ => [])
          | none => [],
        dependencies := findDependencyManifests fs,
        projectStructure := structure0 }

/-- The pip dependency list as the spec describes it: the kept lines each
trimmed of surrounding whitespace. -/
def specPipDeps (content : String) : List String :=
  ((jsSplitNl content).filter
    (fun line => jsTrim line ≠ "" ∧ ¬ jsStartsWith line "#")).map jsTrim

/-- A project root whose requirements.txt holds one indented line. -/
def pipFs : ProjectFs :=
  { rootPath := "/proj", root := FsNode.dir [] true,
    packageJson := none, requirementsTxt := some "  numpy", cargoToml := none }

/-- C5 counterexample: for a requirements.txt containing the single indented
line two-spaces-numpy, the produced pip record keeps the line verbatim, while
the claim demands the trimmed form, so the claim as stated is false. -/
theorem C5_pip_trim_counterexample :
    ∃ m ∈ findDependencyManifests pipFs,
      m.type = ManifestType.pip
        ∧ m.dependencies = ["  numpy"]
        ∧ specPipDeps "  numpy" = ["numpy"]
        ∧ m.dependencies ≠ specPipDeps "  numpy" := by
  decide

/-- C5 amended: for every root with a requirements.txt, the manifests contain
exactly one pip record, whose projectName is the directory base name, whose
description is empty, and whose dependencies are exactly the lines whose
trimmed form is non-empty and which do not start with the # character, each
kept verbatim (not trimmed). -/
theorem C5_pip_manifest_amended (fs : ProjectFs) (content : String)
    (h : fs.requirementsTxt = some content) :
    (findDependencyManifests fs).filter (fun m => m.type = ManifestType.pip)
      = [{ type := ManifestType.pip,
           filePath := joinPath fs.rootPath "requirements.txt",
           projectName := jsBasename fs.rootPath,
           description := "",
           dependencies := (jsSplitNl content).filter
             (fun line => jsTrim line ≠ "" ∧ ¬ jsStartsWith line "#") }] := by
  obtain ⟨rp, root, pj, rq, cg⟩ := fs
  simp only at h
  subst h
  unfold findDependencyManifests
  simp only [List.filter_append]
  rcases pj with _ | (_ | p) <;> rcases cg with _ | c <;> simp

/-- Witness for C5's amended theorem at the concrete pip project root. -/
theorem C5_pip_manifest_amended_witness :
    (findDependencyManifests pipFs).filter (fun m => m.type = ManifestType.pip)
      = [{ type := ManifestType.pip,
           filePath := joinPath "/proj" "requirements.txt",
           projectName := jsBasename "/proj",
           description := "",
           dependencies := (jsSplitNl "  numpy").filter
             (fun line => jsTrim line ≠ "" ∧ ¬ jsStartsWith line "#") }] :=
  C5_pip_manifest_amended pipFs "  numpy" rfl

theorem jsOrStr_eq_empty (v : Option String) (fallback : String)
    (h : jsOrStr v fallback = "") : fallback = "" := by
  unfold jsOrStr at h
  rcases v with _ | s
  · exact h
  · dsimp only at h
    by_cases hs : s = ""
    · rw [if_pos hs] at h
      exact h
    · rw [if_neg hs] at h
      exact absurd h hs

theorem quotedCapture_ne_empty (s4 : List Char) (v : String)
    (h : quotedCapture s4 = some v) : v ≠ "" := by
  unfold quotedCapture at h
  split at h
  · cases h
  · split at h
    · cases h
      intro hc
      rw [show ("" : String) = String.mk [] from rfl] at hc
      injection hc with hc2
      simp_all
    · cases h

theorem matchAfterKey_ne_empty (s : List Char) (v : String)
    (h : matchAfterKey s = some v) : v ≠ "" := by
  unfold matchAfterKey at h
  split at h
  · split at h
    · exact quotedCapture_ne_empty _ _ h
    · cases h
  · cases h

theorem scanForKey_ne_empty (key : List Char) :
    ∀ (l : List Char) (v : String), scanForKey key l = some v → v ≠ "" := by
  intro l
  induction l with
  | nil => intro v h; cases h
  | cons c rest ih =>
      intro v h
      rw [scanForKey] at h
      by_cases hk : (c :: rest).take key.length = key
      · rw [if_pos hk] at h
        cases hm : matchAfterKey ((c :: rest).drop key.length) with
        | some w =>
            rw [hm] at h
            cases h
            exact matchAfterKey_ne_empty _ _ hm
        | none =>
            rw [hm] at h
            exact ih v h
      · rw [if_neg hk] at h
        exact ih v h

theorem getD_scan_empty (key chars : List Char) (fb : String)
    (h : (scanForKey key chars).getD fb = "") : fb = "" := by
  cases hs : scanForKey key chars with
  | some w =>
      rw [hs] at h
      exact absurd h (scanForKey_ne_empty key chars w hs)
  | none =>
      rw [hs] at h
      exact h

theorem manifests_projectName_empty (fs : ProjectFs) :
    ∀ m ∈ findDependencyManifests fs, m.projectName = "" →
      jsBasename fs.rootPath = "" := by
  intro m hm hname
  obtain ⟨rp, root, pj, rq, cg⟩ := fs
  unfold findDependencyManifests at hm
  simp only [List.mem_append] at hm
  rcases hm with (hm | hm) | hm
  · rcases pj with _ | (_ | p) <;> simp at hm
    rw [hm] at hname
    simp only at hname ⊢
    exact jsOrStr_eq_empty p.name _ hname
  · rcases rq with _ | content <;> simp at hm
    rw [hm] at hname
    exact hname
  · rcases cg with _ | content <;> simp at hm
    rw [hm] at hname
    simp only at hname ⊢
    exact getD_scan_empty _ _ _ hname

/-- C1: when analyzeProject returns metadata, its name and description equal
the projectName and description of the first manifest in the fixed
npm-then-pip-then-cargo detection order when at least one manifest was found,
and the directory base name and the empty string otherwise. -/
theorem C1_analyzeProject_name_description (fs : ProjectFs) (md : ProjectMetadata)
    (h : analyzeProject fs = some md) :
    (∀ m, (findDependencyManifests fs).head? = some m →
        md.name = m.projectName ∧ md.description = m.description)
      ∧ (findDependencyManifests fs = [] →
        md.name = jsBasename fs.rootPath ∧ md.description = "") := by
  unfold analyzeProject at h
  cases hscan : scanDirectoryStructure fs.rootPath fs.root 3 0 with
  | none => rw [hscan] at h; cases h
  | some structure0 =>
      rw [hscan] at h
      cases h
      constructor
      · intro m hm
        have hmem : m ∈ findDependencyManifests fs := by
          cases hl : findDependencyManifests fs with
          | nil => rw [hl] at hm; cases hm
          | cons a t =>
              rw [hl] at hm
              rw [List.head?_cons] at hm
              cases hm
              exact List.mem_cons_self _ _
        constructor
        · show (match (findDependencyManifests fs).head? with
            | some m => if m.projectName = "" then jsBasename fs.rootPath else m.projectName
            | none => jsBasename fs.rootPath) = m.projectName
          rw [hm]
          show (if m.projectName = "" then jsBasename fs.rootPath else m.projectName)
            = m.projectName
          by_cases hp : m.projectName = ""
          · rw [if_pos hp, hp]
            exact manifests_projectName_empty fs m hmem hp
          · rw [if_neg hp]
        · show (match (findDependencyManifests fs).head? with
            | some m => m.description
            | none => "") = m.description
          rw [hm]
      · intro hempty
        constructor
        · show (match (findDependencyManifests fs).head? with
            | some m => if m.projectName = "" then jsBasename fs.rootPath else m.projectName
            | none => jsBasename fs.rootPath) = jsBasename fs.rootPath
          rw [hempty]
          rfl
        · show (match (findDependencyManifests fs).head? with
            | some m => m.description
            | none => "") = ""
          rw [hempty]
          rfl

/-- A concrete project root with a parsed package.json. -/
def npmFs : ProjectFs :=
  { rootPath := "/proj", root := FsNode.dir [] true,
    packageJson := some (some
      { name := some "demo", description := some "desc", dependencies := ["react"],
        scripts := [("build", "tsc")], main := some "index.js", bin := none }),
    requirementsTxt := none, cargoToml := none }

/-- The npm manifest record that findDependencyManifests produces for npmFs. -/
def npmRec : DependencyManifest :=
  { type := ManifestType.npm, filePath := joinPath "/proj" "package.json",
    projectName := "demo", description := "desc", dependencies := ["react"] }

/-- The metadata analyzeProject produces for npmFs. -/
def npmMd : ProjectMetadata :=
  { name := "demo", description := "desc",
    language := detectLanguage
      (collectFiles (DirectoryNode.mk "proj" NodeType.directory [] "/proj")),
    entryPoint := some "index.js", scripts := [("build", "tsc")],
    dependencies := [npmRec],
    projectStructure := DirectoryNode.mk "proj" NodeType.directory [] "/proj" }

/-- Witness for C1 at the concrete npm project root. -/
theorem C1_analyzeProject_witness :
    analyzeProject npmFs = some npmMd
      ∧ npmMd.name = "demo" ∧ npmMd.description = "desc" := by
  have hscan : scanDirectoryStructure "/proj" (FsNode.dir [] true) 3 0
      = some (DirectoryNode.mk "proj" NodeType.directory [] "/proj") := by
    rw [scanDirectoryStructure.eq_def]
    dsimp only
    rw [if_neg (by omega), if_pos rfl]
    rfl
  have hmd : analyzeProject npmFs = some npmMd := by
    unfold analyzeProject
    rw [show scanDirectoryStructure npmFs.rootPath npmFs.root 3 0
        = some (DirectoryNode.mk "proj" NodeType.directory [] "/proj") from hscan]
    rfl
  have h2 := (C1_analyzeProject_name_description npmFs npmMd hmd).1 npmRec rfl
  exact ⟨hmd, h2.1, h2.2⟩

end ReadMatic
